import Mathlib

/-!
Verification of the gtop cluster-usage tool (src/gtop/__init__.py).

The Python source is shallowly embedded over `List Char` strings:

* Python `str` values become `List Char` (written via `String.toList` in
  statements for readability);
* Python `float` arithmetic is modelled as exact rational arithmetic (`ℚ`);
  every quantity appearing in the claims is produced by small integer
  parses and divisions, where IEEE doubles and rationals agree;
* code that can raise an exception (`int`/`float` conversion errors,
  tuple-unpacking errors, `IndexError`, …) is embedded as an
  `Option`-returning function, `none` meaning "the Python call raises";
* Python `dict`s keyed by strings become functions `List Char → Option _`,
  with `Function.update` for item assignment (last write wins, no ordering
  is relevant to any claim).

Modelling notes on the numeric literal parsers: Python `int(s)` / `float(s)`
additionally accept underscore digit grouping, exponents, `inf`/`nan` and
some unicode digits; those inputs never occur in the scheduler notations
treated by the spec and are conservatively embedded as parse failures.
-/

namespace Gtop

abbrev Str := List Char

/-! ### Python string primitives -/

/-- Python `s.startswith(pat)` on `List Char`. -/
def pyStartsWith : Str → Str → Bool
  | [], _ => true
  | _ :: _, [] => false
  | p :: ps, c :: cs => p == c && pyStartsWith ps cs

/-- Python `pat in s` (substring containment). -/
def pyContains (pat : Str) : Str → Bool
  | [] => pyStartsWith pat []
  | c :: rest => pyStartsWith pat (c :: rest) || pyContains pat rest

def pyFindAux (pat : Str) : Str → Int → Int
  | [], i => if pyStartsWith pat [] then i else -1
  | c :: rest, i => if pyStartsWith pat (c :: rest) then i else pyFindAux pat rest (i + 1)

/-- Python `s.find(pat)`: index of the first occurrence, `-1` if absent. -/
def pyFind (s pat : Str) : Int := pyFindAux pat s 0

/-- Python `s.split(sep)` for a one-character separator: splits at every
occurrence, `n` separators yield `n+1` (possibly empty) parts. -/
def splitOnChar (sep : Char) : Str → List Str
  | [] => [[]]
  | c :: rest =>
    let r := splitOnChar sep rest
    if c == sep then [] :: r
    else
      match r with
      | [] => [[c]]
      | h :: t => (c :: h) :: t

/-- Splitting at every character satisfying `p` (used for Python `s.split()`
which splits on whitespace runs once empty parts are filtered out). -/
def splitOnP (p : Char → Bool) : Str → List Str
  | [] => [[]]
  | c :: rest =>
    let r := splitOnP p rest
    if p c then [] :: r
    else
      match r with
      | [] => [[c]]
      | h :: t => (c :: h) :: t

/-- Python `s.split()` (no argument): split on whitespace, drop empty parts. -/
def pySplitWs (s : Str) : List Str :=
  (splitOnP Char.isWhitespace s).filter (fun w => !w.isEmpty)

/-- Python `s.strip()`: remove leading and trailing whitespace. -/
def pyStrip (s : Str) : Str :=
  ((s.dropWhile Char.isWhitespace).reverse.dropWhile Char.isWhitespace).reverse

/-- Python `s.rstrip(c)` for a single strip character: removes every trailing `c`. -/
def pyRstrip (c : Char) (s : Str) : Str :=
  (s.reverse.dropWhile (fun x => x == c)).reverse

/-- Numeric value of a decimal digit character. -/
def digitVal (c : Char) : Nat := c.toNat - 48

/-- Value of an all-digit token (also used for Python `int` on digit strings). -/
def tokVal (t : Str) : Nat := t.foldl (fun a c => 10 * a + digitVal c) 0

/-- Digit-string to `Nat`: `none` unless the token is nonempty and all digits. -/
def digitsToNat? (t : Str) : Option Nat :=
  if t.isEmpty then none
  else if t.all Char.isDigit then some (tokVal t) else none

/-- Sign-and-digits part of Python `int(s)` (after whitespace stripping). -/
def pyIntCore : Str → Option Int
  | [] => none
  | c :: rest =>
    if c == '-' then (digitsToNat? rest).map (fun n => -(n : Int))
    else if c == '+' then (digitsToNat? rest).map (fun n => (n : Int))
    else (digitsToNat? (c :: rest)).map (fun n => (n : Int))

/-- Python `int(s)`: optional sign after stripping whitespace, then digits.
`none` models `ValueError`. -/
def pyInt (s : Str) : Option Int := pyIntCore (pyStrip s)

/-- Magnitude part of a Python float literal: digits with at most one
decimal point, at least one digit overall. -/
def pyFloatMag (t : Str) : Option ℚ :=
  match splitOnChar '.' t with
  | [a] => (digitsToNat? a).map (fun n => (n : ℚ))
  | [a, b] =>
    if a.isEmpty && b.isEmpty then none
    else if a.all Char.isDigit && b.all Char.isDigit then
      some ((tokVal a : ℚ) + (tokVal b : ℚ) / ((10 : ℚ) ^ b.length))
    else none
  | _ => none

/-- Sign-and-magnitude part of Python `float(s)` (after whitespace stripping). -/
def pyFloatCore : Str → Option ℚ
  | [] => none
  | c :: rest =>
    if c == '-' then (pyFloatMag rest).map (fun q => -q)
    else if c == '+' then pyFloatMag rest
    else pyFloatMag (c :: rest)

/-- Python `float(s)`, modelled exactly over `ℚ`; `none` models `ValueError`. -/
def pyFloat (s : Str) : Option ℚ := pyFloatCore (pyStrip s)

/-- Left-to-right `Option`-mapM (Python loops abort at the first raised
exception, exactly like this sequencing). -/
def mapMO {α β : Type} (f : α → Option β) : List α → Option (List β)
  | [] => some []
  | a :: l => do
    let b ← f a
    let r ← mapMO f l
    pure (b :: r)

/-- Join a list of strings with a one-character separator
(Python `sep.join(parts)`). -/
def joinSep (sep : Char) : List Str → Str
  | [] => []
  | [t] => t
  | t :: ts => t ++ sep :: joinSep sep ts

/-! ### The gtop decoders (one Lean definition per Python function) -/

/-- Source `is_priority`: `not ("default" in name or "gpu" in name)`. -/
def is_priority (name : Str) : Bool :=
  !(pyContains (("default").toList) name || pyContains (("gpu").toList) name)

/-- Zero-pad a digit string on the left to width `w`. -/
def padZeros (w : Nat) (ds : Str) : Str := List.replicate (w - ds.length) '0' ++ ds

/-- Python `f"{x:02d}"`: minimum width 2, zero filled (a sign counts toward
the width). -/
def fmt02 (x : Int) : Str :=
  if x < 0 then '-' :: padZeros 1 (Nat.toDigits 10 x.natAbs)
  else padZeros 2 (Nat.toDigits 10 x.toNat)

/-- Python `range(a, b + 1)` over `Int`. -/
def intRange (a b : Int) : List Int :=
  (List.range (b + 1 - a).toNat).map (fun i => a + Int.ofNat i)

/-- Source `expand_range`: on a token containing `-`, unpack exactly two
dash-separated parts (a `ValueError` otherwise), convert both with `int`
and emit every value of the inclusive range formatted `"%02d"`; a token
without `-` is returned verbatim. -/
def expand_range (s : Str) : Option (List Str) :=
  if pyContains ['-'] s then
    match splitOnChar '-' s with
    | [a, b] => do
      let x ← pyInt a
      let y ← pyInt b
      pure ((intRange x y).map fmt02)
    | _ => none
  else pure [s]

/-- Scanner of source `parse_nodelist`: split on commas at bracket depth 0,
tracking depth through every character; the final slice is always appended. -/
def splitTL : Str → Int → Str → List Str
  | [], _, cur => [cur.reverse]
  | c :: rest, d, cur =>
    if c == '[' then splitTL rest (d + 1) (c :: cur)
    else if c == ']' then splitTL rest (d - 1) (c :: cur)
    else if c == ',' && d == 0 then cur.reverse :: splitTL rest 0 []
    else splitTL rest d (c :: cur)

def splitTopLevel (s : Str) : List Str := splitTL s 0 []

/-- Per-segment expansion of source `parse_nodelist`: a segment containing
both `[` and `]` is split into prefix, bracket contents (first `[` to first
`]`), and each comma-separated sub-spec is expanded; other segments pass
through verbatim. -/
def processSegment (node : Str) : Option (List Str) :=
  if pyContains ['['] node && pyContains [']'] node then do
    let i := (pyFind node ['[']).toNat
    let j := (pyFind node [']']).toNat
    let base := node.take i
    let ranges := (node.drop (i + 1)).take (j - (i + 1))
    let expanded ← mapMO expand_range (splitOnChar ',' ranges)
    pure (List.flatten (expanded.map (fun sufs => sufs.map (fun suf => base ++ suf))))
  else pure [node]

/-- Source `parse_nodelist`. -/
def parse_nodelist (s : Str) : Option (List Str) := do
  let segs ← mapMO processSegment (splitTopLevel s)
  pure segs.flatten

structure GpuSpec where
  type : Str
  num : Nat
deriving DecidableEq

/-- One iteration of the `parse_gpu` accumulation loop: an item with at
least 3 colon fields whose first field starts with `gpu` contributes its
second field to the model list and the digit characters of its third field
to the total. -/
def gpuStep (acc : List Str × Nat) (item : Str) : List Str × Nat :=
  match splitOnChar ':' item with
  | p0 :: p1 :: p2 :: _ =>
    if pyStartsWith (("gpu").toList) p0 then
      (acc.1 ++ [p1], acc.2 + tokVal (p2.filter Char.isDigit))
    else acc
  | _ => acc

/-- Source `parse_gpu`. -/
def parse_gpu (gres : Str) : GpuSpec :=
  if pyContains (("null").toList) gres then ⟨("null").toList, 0⟩
  else
    let r := (splitOnChar ',' gres).foldl gpuStep ([], 0)
    let ty :=
      if r.1.length > 1 then '(' :: (joinSep '|' r.1 ++ [')'])
      else
        match r.1 with
        | [] => ("null").toList
        | t :: _ => t
    ⟨ty, r.2⟩

structure CpuState where
  idle : Nat
deriving DecidableEq

/-- Source `parse_cpu`: keep field index 1 of the `/`-separated counters if
it is a nonempty digit string, else 0. -/
def parse_cpu (cpu_state : Str) : CpuState :=
  match splitOnChar '/' cpu_state with
  | _ :: p1 :: _ => if !p1.isEmpty && p1.all Char.isDigit then ⟨tokVal p1⟩ else ⟨0⟩
  | _ => ⟨0⟩

structure MemState where
  idle : Int
  total : Nat
deriving DecidableEq

/-- Python `int(x) if x.isdigit() else 0`. -/
def pyDigitNat (s : Str) : Nat :=
  if !s.isEmpty && s.all Char.isDigit then tokVal s else 0

/-- Source `parse_mem`. -/
def parse_mem (alloc_mem total_mem : Str) : MemState :=
  let a := pyDigitNat alloc_mem
  let t := pyDigitNat total_mem
  ⟨(t : Int) - (a : Int), t⟩

inductive Resource
  | cpu
  | gpu
  | mem
deriving DecidableEq

def resName : Resource → Str
  | .cpu => ("cpu").toList
  | .gpu => ("gpu").toList
  | .mem => ("mem").toList

/-- One resource of source `parse_usage`: if the resource name occurs as a
substring and `"<res>="` is found, the slice after the first `"<res>="` up
to the next comma, with trailing `G`s stripped, is parsed as a float; the
default 0.0 survives otherwise. -/
def parseOneRes (s : Str) (res : Str) : Option ℚ :=
  if pyContains res s then
    let start := pyFind s (res ++ ['='])
    if start != -1 then
      let v1 := s.drop (start.toNat + res.length + 1)
      let e := pyFind v1 [',']
      let v2 := if e != -1 then v1.take e.toNat else v1
      pyFloat (pyRstrip 'G' v2)
    else pure 0
  else pure 0

/-- Source `parse_usage` (iterating `RESOURCES = ["cpu", "gpu", "mem"]`). -/
def parse_usage (alloc_tres : Str) : Option (Resource → ℚ) := do
  let c ← parseOneRes alloc_tres (("cpu").toList)
  let g ← parseOneRes alloc_tres (("gpu").toList)
  let m ← parseOneRes alloc_tres (("mem").toList)
  pure (fun r => match r with | .cpu => c | .gpu => g | .mem => m)

inductive PClass
  | priority
  | default
deriving DecidableEq

/-- Line 137 of the source: `"priority" if is_priority(partition) else "default"`. -/
def classifyP (partition : Str) : PClass :=
  if is_priority partition then .priority else .default

/-- One job's per-node allocation record (`servers[node]["users"][job_id]`
in the source: the raw partition name is stored, not the partition class). -/
structure JobShare where
  netid : Str
  partition : Str
  res : Resource → ℚ

/-- One value of the inventory mapping built by `parse_sinfo`. -/
structure NodeRec where
  gpu : GpuSpec
  cpu : CpuState
  mem : MemState
  usage : Resource → PClass → ℚ
  users : Str → Option JobShare

/-- The inventory: Python dict hostname → record, as a function map. -/
def Servers := Str → Option NodeRec

def emptyServers : Servers := fun _ => none

/-- A freshly inserted inventory record (zero usage, no jobs). -/
def freshNode (g : GpuSpec) (c : CpuState) (m : MemState) : NodeRec :=
  ⟨g, c, m, fun _ _ => 0, fun _ => none⟩

/-- `output.strip().split("\n")`. -/
def pyLines (output : Str) : List Str := splitOnChar '\n' (pyStrip output)

/-- Left-to-right fold over feed lines with exception propagation
(a raised exception aborts the whole Python call). -/
def foldLinesM (f : Servers → Str → Option Servers) : Servers → List Str → Option Servers
  | sv, [] => some sv
  | sv, l :: ls => do
    let sv' ← f sv l
    foldLinesM f sv' ls

/-- One line of source `parse_sinfo`: whitespace fields, empty lines skipped;
fields 1–4 are read in source order (a missing index is an `IndexError`,
embedded as `none`); when `gpu_only` is set a null-GPU line is skipped right
after field 1 is decoded; every expanded hostname of field 0 is inserted. -/
def parse_sinfo_line (gpu_only : Bool) (sv : Servers) (line : Str) : Option Servers :=
  let parts := pySplitWs line
  if parts.isEmpty then pure sv
  else do
    let f1 ← parts.get? 1
    let gpu := parse_gpu f1
    if gpu_only && gpu.type == ("null").toList then pure sv
    else do
      let f2 ← parts.get? 2
      let cpu := parse_cpu f2
      let f3 ← parts.get? 3
      let f4 ← parts.get? 4
      let mem := parse_mem f3 f4
      let f0 ← parts.get? 0
      let nodes ← parse_nodelist f0
      pure (nodes.foldl (fun s n => Function.update s n (some (freshNode gpu cpu mem))) sv)

/-- Source `parse_sinfo`. -/
def parse_sinfo (output : Str) (gpu_only : Bool) : Option Servers :=
  foldLinesM (parse_sinfo_line gpu_only) emptyServers (pyLines output)

/-- `[p for p in line.split(" ") if p]` (source lines 129 and 297). -/
def splitFields (line : Str) : List Str :=
  (splitOnChar ' ' line).filter (fun p => !p.isEmpty)

/-- The body of the `for node in nodes` loop of `process_jobs`: nodes absent
from the inventory are ignored; present nodes get the job share stored under
the job id and the same share added to the partition-class accumulator of
every resource. -/
def attribNode (user partition job_id : Str) (u : Resource → ℚ) (k : Nat)
    (pt : PClass) (sv : Servers) (node : Str) : Servers :=
  match sv node with
  | none => sv
  | some nr =>
    Function.update sv node (some
      { nr with
        users := Function.update nr.users job_id
          (some ⟨user, partition, fun r => u r / (k : ℚ)⟩),
        usage := fun r p =>
          if p = pt then nr.usage r p + u r / (k : ℚ) else nr.usage r p })

/-- One line of source `process_jobs`: lines with fewer than 6
space-separated nonempty fields are skipped; otherwise the allocation
string is decoded, the nodelist expanded, and each expanded node attributed. -/
def process_line (sv : Servers) (line : Str) : Option Servers :=
  let parts := splitFields line
  if parts.length < 6 then pure sv
  else do
    let user := parts.getD 0 []
    let partition := parts.getD 1 []
    let nodelist := parts.getD 2 []
    let alloc_tres := parts.getD 4 []
    let job_id := parts.getD 5 []
    let u ← parse_usage alloc_tres
    let nodes ← parse_nodelist nodelist
    pure (nodes.foldl
      (attribNode user partition job_id u nodes.length (classifyP partition)) sv)

/-- Source `process_jobs`. -/
def process_jobs (gtop_output : Str) (servers : Servers) : Option Servers :=
  foldLinesM process_line servers (pyLines gtop_output)

/-- One entry of the flat per-user job list built in `main`
(fields 0, 1, 2, 4, 5 of a job line). -/
structure JobSummary where
  user : Str
  partition : Str
  nodelist : Str
  usage_str : Str
  job_id : Str
deriving DecidableEq

/-- The job-summary loop of `main` (lines 296–305): every line with at
least 6 fields contributes one summary entry; no node filtering occurs. -/
def build_jobs (gtop_output : Str) : List JobSummary :=
  (pyLines gtop_output).filterMap (fun line =>
    let parts := splitFields line
    if parts.length ≥ 6 then
      some ⟨parts.getD 0 [], parts.getD 1 [], parts.getD 2 [], parts.getD 4 [], parts.getD 5 []⟩
    else none)

/-! ### Observation helpers used by the theorem statements -/

/-- The partition-class accumulator of one node (0 for an absent node). -/
def nodeUsage (sv : Servers) (n : Str) (r : Resource) (p : PClass) : ℚ :=
  match sv n with
  | none => 0
  | some nr => nr.usage r p

/-- The per-resource share stored for one job on one node. -/
def shareAt (sv : Servers) (n job_id : Str) (r : Resource) : Option ℚ :=
  match sv n with
  | none => none
  | some nr => (nr.users job_id).map (fun js => js.res r)

/-! ### The HostRange grammar of the spec (§3, §4.1)

A valid HostRange expression is a nonempty comma-separated list of
segments; a segment is a bare hostname or `base[spec(,spec)*]`, a spec
being a zero-padded index or an inclusive `start-end` range. -/

inductive RangeSpec
  | single (tok : Str)
  | rng (a b : Str)
deriving DecidableEq

inductive Segment
  | bare (name : Str)
  | bracketed (base : Str) (specs : List RangeSpec)
deriving DecidableEq

def renderSpec : RangeSpec → Str
  | .single t => t
  | .rng a b => a ++ '-' :: b

def renderSeg : Segment → Str
  | .bare n => n
  | .bracketed base specs => base ++ '[' :: (joinSep ',' (specs.map renderSpec) ++ [']'])

/-- Concrete text of a HostRange expression. -/
def renderExpr (e : List Segment) : Str := joinSep ',' (e.map renderSeg)

/-- Expansion of one range spec, as the code produces it (`%02d` formatting). -/
def specExpand : RangeSpec → List Str
  | .single t => [t]
  | .rng a b => (intRange (tokVal a : Int) (tokVal b : Int)).map fmt02

def segExpand : Segment → List Str
  | .bare n => [n]
  | .bracketed base specs =>
    List.flatten (specs.map (fun sp => (specExpand sp).map (fun suf => base ++ suf)))

/-- The expected hostname expansion, in left-to-right textual order. -/
def exprExpand (e : List Segment) : List Str := List.flatten (e.map segExpand)

/-- Cardinality of a range spec per the spec: 1 for an index,
`end - start + 1` for a range. -/
def specCard : RangeSpec → Nat
  | .single _ => 1
  | .rng a b => tokVal b - tokVal a + 1

def segCard : Segment → Nat
  | .bare _ => 1
  | .bracketed _ specs => (specs.map specCard).sum

def exprCard (e : List Segment) : Nat := (e.map segCard).sum

/-- A nonempty all-digit token. -/
def digitTok (t : Str) : Prop := t ≠ [] ∧ ∀ c ∈ t, c.isDigit = true

/-- A character that is legal in a bare hostname or bracket prefix. -/
def plainChar (c : Char) : Prop := c ≠ ',' ∧ c ≠ '[' ∧ c ≠ ']'

def specOk : RangeSpec → Prop
  | .single t => digitTok t
  | .rng a b => digitTok a ∧ digitTok b ∧ tokVal a ≤ tokVal b

def segOk : Segment → Prop
  | .bare n => ∀ c ∈ n, plainChar c
  | .bracketed base specs =>
    (∀ c ∈ base, plainChar c) ∧ specs ≠ [] ∧ ∀ sp ∈ specs, specOk sp

/-- Validity of a whole HostRange expression. -/
def exprOk (e : List Segment) : Prop := e ≠ [] ∧ ∀ s ∈ e, segOk s

instance (t : Str) : Decidable (digitTok t) := by
  unfold digitTok
  infer_instance

instance (c : Char) : Decidable (plainChar c) := by
  unfold plainChar
  infer_instance

instance : (sp : RangeSpec) → Decidable (specOk sp)
  | .single t => inferInstanceAs (Decidable (digitTok t))
  | .rng a b => inferInstanceAs (Decidable (_ ∧ _ ∧ _))

instance : (s : Segment) → Decidable (segOk s)
  | .bare n => inferInstanceAs (Decidable (∀ c ∈ n, plainChar c))
  | .bracketed base specs => inferInstanceAs (Decidable (_ ∧ _ ∧ _))

instance (e : List Segment) : Decidable (exprOk e) := by
  unfold exprOk
  infer_instance


/-! ### GPU decoder characterization (spec side of C4) -/

def gpuItems (g : Str) : List Str := splitOnChar ',' g

def itemFields (it : Str) : List Str := splitOnChar ':' it

/-- An item counts toward GPU totals iff it has at least 3 colon fields and
its first field starts with `gpu` (spec §4.2). -/
def isGpuItem (it : Str) : Bool :=
  decide ((itemFields it).length ≥ 3) && pyStartsWith (("gpu").toList) ((itemFields it).headD [])

/-- Model names of the matching items, in order, duplicates retained. -/
def matchedTypes (g : Str) : List Str :=
  ((gpuItems g).filter isGpuItem).map (fun it => (itemFields it).getD 1 [])

/-- Sum of the digit-extracted counts of the matching items. -/
def matchedTotal (g : Str) : Nat :=
  (((gpuItems g).filter isGpuItem).map
    (fun it => tokVal (((itemFields it).getD 2 []).filter Char.isDigit))).sum

/-- Kind rendering of the source: parenthesized `|`-join when more than one
item matched, the single name when exactly one matched, `null` when none. -/
def renderKind (types : List Str) : Str :=
  if types.length > 1 then '(' :: (joinSep '|' types ++ [')'])
  else
    match types with
    | [] => ("null").toList
    | t :: _ => t

/-! ### Concrete scenarios used by the C1 and C6 statements -/

/-- A job line: user alice, partition research, nodes node01,node02, gpu=4, job 77. -/
def lineTwo : Str := ("alice research node01,node02 R gpu=4 77").toList

/-- An inventory containing only node01. -/
def svOne : Servers := fun n =>
  if n = ("node01").toList then some (freshNode ⟨("a100").toList, 4⟩ ⟨0⟩ ⟨0, 0⟩) else none

/-- An inventory containing node01 and node02. -/
def svTwo : Servers := fun n =>
  if n = ("node01").toList ∨ n = ("node02").toList
  then some (freshNode ⟨("a100").toList, 4⟩ ⟨0⟩ ⟨0, 0⟩) else none

def usageTwo : Resource → ℚ := (parse_usage (("gpu=4").toList)).getD (fun _ => 0)

def nodesTwo : List Str := [("node01").toList, ("node02").toList]

def svTwoAfter : Servers := (process_line svTwo lineTwo).getD svTwo

/-- A job feed whose single job references node01 and the unknown nodeZ. -/
def outC : Str := ("alice research node01,nodeZ R gpu=4 77").toList

def svOneAfter : Servers := (process_jobs outC svOne).getD svOne

/-! ### Lemmas about the string primitives -/

theorem pyStartsWith_iff (p : Str) : ∀ s : Str, pyStartsWith p s = true ↔ p <+: s := by
  induction p with
  | nil => intro s; simp [pyStartsWith]
  | cons a ps ih =>
    intro s
    cases s with
    | nil =>
      constructor
      · intro h
        exact absurd h (by simp [pyStartsWith])
      · intro h
        exact absurd h.length_le (by simp)
    | cons c cs =>
      simp [pyStartsWith, ih, List.cons_prefix_cons, Bool.and_eq_true, beq_iff_eq]

theorem pyContains_iff (p : Str) : ∀ s : Str, pyContains p s = true ↔ p <:+: s := by
  intro s
  induction s with
  | nil => simp [pyContains, pyStartsWith_iff, List.infix_nil]
  | cons c cs ih =>
    rw [pyContains]
    simp [Bool.or_eq_true, pyStartsWith_iff, ih, List.infix_cons_iff]

theorem pyContains_single (c : Char) (s : Str) : pyContains [c] s = true ↔ c ∈ s := by
  rw [pyContains_iff]
  constructor
  · rintro ⟨pre, post, rfl⟩
    simp
  · intro h
    obtain ⟨pre, post, rfl⟩ := List.append_of_mem h
    exact ⟨pre, post, by simp⟩

theorem pyContains_eq_false {c : Char} {s : Str} (h : c ∉ s) : pyContains [c] s = false := by
  rcases Bool.eq_false_or_eq_true (pyContains [c] s) with hb | hb
  · exact absurd ((pyContains_single c s).mp hb) h
  · exact hb

theorem pyStartsWith_single (c x : Char) (xs : Str) :
    pyStartsWith [c] (x :: xs) = (c == x) := by
  simp [pyStartsWith]

theorem pyFindAux_single {c : Char} :
    ∀ (pre : Str), c ∉ pre → ∀ (post : Str) (i : Int),
      pyFindAux [c] (pre ++ c :: post) i = i + pre.length := by
  intro pre
  induction pre with
  | nil =>
    intro _ post i
    simp [pyFindAux, pyStartsWith_single]
  | cons a pre ih =>
    intro h post i
    have hne : ¬(c == a) = true := by
      simp only [beq_iff_eq]
      intro hca
      exact h (by simp [hca])
    rw [List.cons_append, pyFindAux, pyStartsWith_single, if_neg hne,
      ih (fun hm => h (List.mem_cons_of_mem _ hm)) post (i + 1)]
    simp
    ring

theorem pyFind_single {c : Char} {pre : Str} (h : c ∉ pre) (post : Str) :
    pyFind (pre ++ c :: post) [c] = (pre.length : Int) := by
  rw [pyFind, pyFindAux_single pre h post 0]
  simp

theorem splitOnChar_of_not_mem {sep : Char} : ∀ {s : Str}, sep ∉ s →
    splitOnChar sep s = [s] := by
  intro s
  induction s with
  | nil => intro _; rfl
  | cons c rest ih =>
    intro h
    have hc : ¬(c == sep) = true := by
      simp only [beq_iff_eq]
      intro hce
      exact h (by simp [hce])
    rw [splitOnChar]
    rw [ih (fun hm => h (List.mem_cons_of_mem _ hm))]
    simp [hc]

theorem splitOnChar_append {sep : Char} : ∀ {t : Str}, sep ∉ t → ∀ (rest : Str),
    splitOnChar sep (t ++ sep :: rest) = t :: splitOnChar sep rest := by
  intro t
  induction t with
  | nil =>
    intro _ rest
    simp [splitOnChar]
  | cons c t ih =>
    intro h rest
    have hc : ¬(c == sep) = true := by
      simp only [beq_iff_eq]
      intro hce
      exact h (by simp [hce])
    rw [List.cons_append, splitOnChar]
    rw [ih (fun hm => h (List.mem_cons_of_mem _ hm)) rest]
    simp [hc]

theorem splitOnChar_joinSep {sep : Char} : ∀ {ts : List Str}, ts ≠ [] →
    (∀ t ∈ ts, sep ∉ t) → splitOnChar sep (joinSep sep ts) = ts := by
  intro ts
  induction ts with
  | nil => intro h; exact absurd rfl h
  | cons t ts ih =>
    intro _ hmem
    cases ts with
    | nil => exact splitOnChar_of_not_mem (hmem t (by simp))
    | cons t2 ts2 =>
      have hj : joinSep sep (t :: t2 :: ts2) = t ++ sep :: joinSep sep (t2 :: ts2) := rfl
      rw [hj, splitOnChar_append (hmem t (by simp)),
        ih (List.cons_ne_nil _ _) (fun x hx => hmem x (List.mem_cons_of_mem _ hx))]

theorem mem_joinSep {sep : Char} {c : Char} :
    ∀ {ts : List Str}, c ∈ joinSep sep ts → c = sep ∨ ∃ t ∈ ts, c ∈ t := by
  intro ts
  induction ts with
  | nil => intro h; simp [joinSep] at h
  | cons t ts ih =>
    intro h
    cases ts with
    | nil =>
      right
      exact ⟨t, by simp, by simpa [joinSep] using h⟩
    | cons t2 ts2 =>
      have hj : joinSep sep (t :: t2 :: ts2) = t ++ sep :: joinSep sep (t2 :: ts2) := rfl
      rw [hj] at h
      rcases List.mem_append.mp h with h1 | h1
      · exact Or.inr ⟨t, by simp, h1⟩
      · rcases List.mem_cons.mp h1 with h2 | h2
        · exact Or.inl h2
        · rcases ih h2 with h3 | ⟨u, hu, hcu⟩
          · exact Or.inl h3
          · exact Or.inr ⟨u, List.mem_cons_of_mem _ hu, hcu⟩

theorem mapMO_map_some {α β γ : Type} (f : β → Option γ) (r : α → β) (g : α → γ) :
    ∀ l : List α, (∀ x ∈ l, f (r x) = some (g x)) →
      mapMO f (l.map r) = some (l.map g) := by
  intro l
  induction l with
  | nil => intro _; rfl
  | cons a l ih =>
    intro h
    simp only [List.map_cons, mapMO, h a (by simp), ih (fun x hx => h x (by simp [hx])),
      Option.bind_eq_bind, Option.some_bind]
    rfl

theorem dropWhile_ws_eq_self {l : Str} (h : ∀ c ∈ l, c.isWhitespace = false) :
    l.dropWhile Char.isWhitespace = l := by
  cases l with
  | nil => rfl
  | cons c rest => simp [List.dropWhile, h c (by simp)]

theorem not_ws_of_digit {c : Char} (h : c.isDigit = true) : c.isWhitespace = false := by
  rcases Bool.eq_false_or_eq_true c.isWhitespace with hw | hw
  · exfalso
    have h4 : ((c = ' ' ∨ c = '\t') ∨ c = '\r') ∨ c = '\n' := by
      simpa [Char.isWhitespace] using hw
    rcases h4 with ((h1 | h1) | h1) | h1 <;> subst h1 <;> exact absurd h (by decide)
  · exact hw

theorem pyStrip_of_digits {t : Str} (h : ∀ c ∈ t, c.isDigit = true) : pyStrip t = t := by
  unfold pyStrip
  rw [dropWhile_ws_eq_self (fun c hc => not_ws_of_digit (h c hc))]
  rw [dropWhile_ws_eq_self (fun c hc => not_ws_of_digit (h c (List.mem_reverse.mp hc)))]
  exact List.reverse_reverse t

theorem digitsToNat?_of_digits {t : Str} (hne : t ≠ []) (h : ∀ c ∈ t, c.isDigit = true) :
    digitsToNat? t = some (tokVal t) := by
  unfold digitsToNat?
  rw [if_neg (by simpa [List.isEmpty_iff] using hne), if_pos (List.all_eq_true.mpr h)]

theorem pyInt_of_digits {t : Str} (hne : t ≠ []) (h : ∀ c ∈ t, c.isDigit = true) :
    pyInt t = some ((tokVal t : Int)) := by
  unfold pyInt
  rw [pyStrip_of_digits h]
  cases t with
  | nil => exact absurd rfl hne
  | cons c rest =>
    have hc : c.isDigit = true := h c (by simp)
    have h1 : ¬(c == '-') = true := by
      simp only [beq_iff_eq]
      intro he
      subst he
      exact absurd hc (by decide)
    have h2 : ¬(c == '+') = true := by
      simp only [beq_iff_eq]
      intro he
      subst he
      exact absurd hc (by decide)
    rw [pyIntCore, if_neg h1, if_neg h2, digitsToNat?_of_digits (by simp) h]
    rfl

/-! ### The top-level comma split recovers the rendered segments -/

theorem splitTL_plain : ∀ (s : Str), (∀ c ∈ s, c ≠ ',' ∧ c ≠ '[' ∧ c ≠ ']') →
    ∀ (rest : Str) (d : Int) (cur : Str),
      splitTL (s ++ rest) d cur = splitTL rest d (s.reverse ++ cur) := by
  intro s
  induction s with
  | nil => intro _ rest d cur; simp
  | cons c s ih =>
    intro h rest d cur
    obtain ⟨h1, h2, h3⟩ := h c (by simp)
    rw [List.cons_append, splitTL]
    rw [if_neg (by simpa using h2), if_neg (by simpa using h3),
      if_neg (by simp [h1])]
    rw [ih (fun x hx => h x (List.mem_cons_of_mem _ hx)) rest d (c :: cur)]
    simp

theorem splitTL_inner : ∀ (s : Str), (∀ c ∈ s, c ≠ '[' ∧ c ≠ ']') →
    ∀ (rest : Str) (d : Int), d ≠ 0 → ∀ (cur : Str),
      splitTL (s ++ rest) d cur = splitTL rest d (s.reverse ++ cur) := by
  intro s
  induction s with
  | nil => intro _ rest d _ cur; simp
  | cons c s ih =>
    intro h rest d hd cur
    obtain ⟨h2, h3⟩ := h c (by simp)
    rw [List.cons_append, splitTL]
    rw [if_neg (by simpa using h2), if_neg (by simpa using h3),
      if_neg (by simp [hd])]
    rw [ih (fun x hx => h x (List.mem_cons_of_mem _ hx)) rest d hd (c :: cur)]
    simp

/-- Characters occurring in a rendered range spec are digits or dashes. -/
theorem renderSpec_chars {sp : RangeSpec} (h : specOk sp) :
    ∀ c ∈ renderSpec sp, c.isDigit = true ∨ c = '-' := by
  cases sp with
  | single t =>
    intro c hc
    exact Or.inl (h.2 c hc)
  | rng a b =>
    intro c hc
    rw [renderSpec] at hc
    rcases List.mem_append.mp hc with h1 | h1
    · exact Or.inl (h.1.2 c h1)
    · rcases List.mem_cons.mp h1 with h2 | h2
      · exact Or.inr h2
      · exact Or.inl (h.2.1.2 c h2)

theorem digit_not_bracket {c : Char} (h : c.isDigit = true) :
    c ≠ ',' ∧ c ≠ '[' ∧ c ≠ ']' ∧ c ≠ '-' ∧ c ≠ '=' := by
  refine ⟨?_, ?_, ?_, ?_, ?_⟩ <;> intro he <;> subst he <;> exact absurd h (by decide)

/-- Characters of the bracket interior of a valid segment. -/
theorem innerChars {specs : List RangeSpec} (h : ∀ sp ∈ specs, specOk sp) :
    ∀ c ∈ joinSep ',' (specs.map renderSpec), c ≠ '[' ∧ c ≠ ']' := by
  intro c hc
  rcases mem_joinSep hc with h1 | ⟨t, ht, hct⟩
  · subst h1
    exact ⟨by decide, by decide⟩
  · obtain ⟨sp, hsp, rfl⟩ := List.mem_map.mp ht
    rcases renderSpec_chars (h sp hsp) c hct with hd | hd
    · exact ⟨(digit_not_bracket hd).2.1, (digit_not_bracket hd).2.2.1⟩
    · subst hd
      exact ⟨by decide, by decide⟩

/-- A rendered valid segment passes through the scanner as one piece. -/
theorem splitTL_seg {seg : Segment} (h : segOk seg) :
    ∀ (rest : Str) (cur : Str),
      splitTL (renderSeg seg ++ rest) 0 cur = splitTL rest 0 ((renderSeg seg).reverse ++ cur) := by
  cases seg with
  | bare n =>
    intro rest cur
    exact splitTL_plain n (fun c hc => h c hc) rest 0 cur
  | bracketed base specs =>
    intro rest cur
    obtain ⟨hbase, _, hspecs⟩ := h
    rw [renderSeg]
    rw [List.append_assoc, splitTL_plain base (fun c hc => hbase c hc)]
    rw [List.cons_append, splitTL]
    rw [if_pos (by simp)]
    have hz : (0 : Int) + 1 ≠ 0 := by decide
    rw [List.append_assoc, List.cons_append, splitTL_inner _ (innerChars hspecs) _ _ hz]
    simp only [List.nil_append]
    rw [splitTL]
    rw [if_neg (by decide), if_pos (by simp)]
    have hd0 : (0 : Int) + 1 - 1 = 0 := by decide
    rw [hd0]
    simp [List.reverse_append]

theorem splitTopLevel_render : ∀ (e : List Segment), e ≠ [] → (∀ s ∈ e, segOk s) →
    splitTopLevel (renderExpr e) = e.map renderSeg := by
  intro e
  induction e with
  | nil => intro h _; exact absurd rfl h
  | cons a e ih =>
    intro _ h
    cases e with
    | nil =>
      show splitTL (renderExpr [a]) 0 [] = [renderSeg a]
      have hr : renderExpr [a] = renderSeg a ++ [] := by
        simp [renderExpr, joinSep]
      rw [hr, splitTL_seg (h a (by simp)) [] []]
      simp [splitTL]
    | cons b e2 =>
      have hj : renderExpr (a :: b :: e2) = renderSeg a ++ ',' :: renderExpr (b :: e2) := rfl
      unfold splitTopLevel
      rw [hj, splitTL_seg (h a (by simp))]
      rw [splitTL]
      rw [if_neg (by decide), if_neg (by decide), if_pos (by decide)]
      rw [List.map_cons]
      have ht : splitTL (renderExpr (b :: e2)) 0 [] = (b :: e2).map renderSeg :=
        ih (List.cons_ne_nil _ _) (fun s hs => h s (List.mem_cons_of_mem _ hs))
      rw [ht]
      simp

theorem expand_range_digits {a b : Str} (ha : digitTok a) (hb : digitTok b) :
    expand_range (a ++ '-' :: b) =
      some ((intRange ((tokVal a : Int)) ((tokVal b : Int))).map fmt02) := by
  have hda : '-' ∉ a := fun hm => (digit_not_bracket (ha.2 '-' hm)).2.2.2.1 rfl
  have hdb : '-' ∉ b := fun hm => (digit_not_bracket (hb.2 '-' hm)).2.2.2.1 rfl
  have hmem : pyContains ['-'] (a ++ '-' :: b) = true :=
    (pyContains_single _ _).mpr (by simp)
  unfold expand_range
  rw [if_pos hmem, splitOnChar_append hda, splitOnChar_of_not_mem hdb]
  show (do
    let x ← pyInt a
    let y ← pyInt b
    pure ((intRange x y).map fmt02) : Option (List Str)) =
      some ((intRange ((tokVal a : Int)) ((tokVal b : Int))).map fmt02)
  rw [pyInt_of_digits ha.1 ha.2, pyInt_of_digits hb.1 hb.2]
  rfl

theorem expand_range_renderSpec {sp : RangeSpec} (h : specOk sp) :
    expand_range (renderSpec sp) = some (specExpand sp) := by
  cases sp with
  | single t =>
    have hnd : '-' ∉ t := fun hm => (digit_not_bracket (h.2 '-' hm)).2.2.2.1 rfl
    show expand_range t = some [t]
    unfold expand_range
    rw [pyContains_eq_false hnd]
    simp
  | rng a b =>
    obtain ⟨ha, hb, _⟩ := h
    exact expand_range_digits ha hb

theorem processSegment_render {seg : Segment} (h : segOk seg) :
    processSegment (renderSeg seg) = some (segExpand seg) := by
  cases seg with
  | bare n =>
    have hnb : '[' ∉ n := fun hm => (h '[' hm).2.1 rfl
    show processSegment n = some [n]
    unfold processSegment
    rw [Bool.and_eq_false_iff.mpr (Or.inl (pyContains_eq_false hnb))]
    simp
  | bracketed base specs =>
    obtain ⟨hbase, hne, hspecs⟩ := h
    have hb1 : '[' ∉ base := fun hm => (hbase '[' hm).2.1 rfl
    have hb2 : ']' ∉ base := fun hm => (hbase ']' hm).2.2 rfl
    have hb3 : ']' ∉ joinSep ',' (specs.map renderSpec) :=
      fun hm => (innerChars hspecs ']' hm).2 rfl
    have hnode : renderSeg (Segment.bracketed base specs) =
        base ++ '[' :: (joinSep ',' (specs.map renderSpec) ++ [']']) := rfl
    have hnode2 : renderSeg (Segment.bracketed base specs) =
        (base ++ '[' :: joinSep ',' (specs.map renderSpec)) ++ ']' :: [] := by
      rw [hnode]
      simp
    have hguard : (pyContains ['['] (renderSeg (Segment.bracketed base specs)) &&
        pyContains [']'] (renderSeg (Segment.bracketed base specs))) = true := by
      rw [Bool.and_eq_true]
      constructor
      · exact (pyContains_single _ _).mpr (by rw [hnode]; simp)
      · exact (pyContains_single _ _).mpr (by rw [hnode]; simp)
    have hfind1 : pyFind (renderSeg (Segment.bracketed base specs)) ['['] =
        (base.length : Int) := by
      rw [hnode]
      exact pyFind_single hb1 _
    have hfind2 : pyFind (renderSeg (Segment.bracketed base specs)) [']'] =
        ((base.length + 1 + (joinSep ',' (specs.map renderSpec)).length : Nat) : Int) := by
      rw [hnode2]
      have hpre : ']' ∉ base ++ '[' :: joinSep ',' (specs.map renderSpec) := by
        intro hm
        rcases List.mem_append.mp hm with h1 | h1
        · exact hb2 h1
        · rcases List.mem_cons.mp h1 with h2 | h2
          · exact absurd h2 (by decide)
          · exact hb3 h2
      rw [pyFind_single hpre]
      simp
      ring
    have htake : (renderSeg (Segment.bracketed base specs)).take base.length = base := by
      rw [hnode]
      exact List.take_left base _
    have hdrop : (renderSeg (Segment.bracketed base specs)).drop (base.length + 1) =
        joinSep ',' (specs.map renderSpec) ++ [']'] := by
      rw [hnode]
      have hsplit2 : base ++ '[' :: (joinSep ',' (specs.map renderSpec) ++ [']']) =
          (base ++ ['[']) ++ (joinSep ',' (specs.map renderSpec) ++ [']']) := by simp
      rw [hsplit2]
      have hlen : base.length + 1 = (base ++ ['[']).length := by simp
      rw [hlen]
      exact List.drop_left _ _
    have harith : base.length + 1 + (joinSep ',' (specs.map renderSpec)).length -
        (base.length + 1) = (joinSep ',' (specs.map renderSpec)).length := by omega
    have hsplit : splitOnChar ',' (joinSep ',' (specs.map renderSpec)) =
        specs.map renderSpec := by
      refine splitOnChar_joinSep ?_ ?_
      · simpa using hne
      · intro t ht hm
        obtain ⟨sp, hsp, rfl⟩ := List.mem_map.mp ht
        rcases renderSpec_chars (hspecs sp hsp) ',' hm with hd | hd
        · exact (digit_not_bracket hd).1 rfl
        · exact absurd hd (by decide)
    unfold processSegment
    rw [if_pos hguard]
    simp only [hfind1, hfind2, Int.toNat_natCast, htake, hdrop, harith, List.take_left, hsplit,
      mapMO_map_some expand_range renderSpec specExpand specs
        (fun sp hsp => expand_range_renderSpec (hspecs sp hsp)),
      Option.bind_eq_bind, Option.some_bind]
    simp only [segExpand, List.map_map]
    rfl

theorem specExpand_length {sp : RangeSpec} (h : specOk sp) :
    (specExpand sp).length = specCard sp := by
  cases sp with
  | single t => rfl
  | rng a b =>
    obtain ⟨_, _, hle⟩ := h
    rw [specExpand, specCard]
    simp only [intRange, List.length_map, List.length_range]
    omega

theorem segExpand_length {seg : Segment} (h : segOk seg) :
    (segExpand seg).length = segCard seg := by
  cases seg with
  | bare n => rfl
  | bracketed base specs =>
    rw [segExpand, segCard, List.length_flatten, List.map_map]
    congr 1
    refine List.map_congr_left ?_
    intro sp hsp
    simp [specExpand_length (h.2.2 sp hsp)]

theorem exprExpand_length {e : List Segment} (h : ∀ s ∈ e, segOk s) :
    (exprExpand e).length = exprCard e := by
  rw [exprExpand, exprCard, List.length_flatten, List.map_map]
  congr 1
  refine List.map_congr_left ?_
  intro s hs
  simp [segExpand_length (h s hs)]

/-! ### Claim theorems -/

/-- C2: for every valid HostRange expression the Node-List Expander returns
the hostnames of the segments in left-to-right textual order (top-level
segments being split only on commas at bracket depth 0), the length of the
expansion equals the sum of each segment's cardinality (1 for a bare name,
`end - start + 1` for each bracketed range), and in particular
`expand("nodeA,nodeB[05-06]") = ["nodeA", "nodeB05", "nodeB06"]`. -/
theorem C2_expansion :
    (∀ e : List Segment, exprOk e →
      parse_nodelist (renderExpr e) = some (exprExpand e) ∧
      (exprExpand e).length = exprCard e) ∧
    parse_nodelist (("nodeA,nodeB[05-06]").toList) =
      some [("nodeA").toList, ("nodeB05").toList, ("nodeB06").toList] := by
  constructor
  · intro e he
    constructor
    · unfold parse_nodelist
      rw [splitTopLevel_render e he.1 he.2,
        mapMO_map_some processSegment renderSeg segExpand e
          (fun s hs => processSegment_render (he.2 s hs))]
      rfl
    · exact exprExpand_length he.2
  · decide

/-- C2 witness: the general expansion theorem applied to the concrete
expression `nodeA,nodeB[05-06]`. -/
theorem C2_expansion_witness :
    exprOk [Segment.bare (("nodeA").toList),
      Segment.bracketed (("nodeB").toList) [RangeSpec.rng (("05").toList) (("06").toList)]] ∧
    parse_nodelist (renderExpr [Segment.bare (("nodeA").toList),
      Segment.bracketed (("nodeB").toList) [RangeSpec.rng (("05").toList) (("06").toList)]]) =
      some (exprExpand [Segment.bare (("nodeA").toList),
        Segment.bracketed (("nodeB").toList) [RangeSpec.rng (("05").toList) (("06").toList)]]) ∧
    (exprExpand [Segment.bare (("nodeA").toList),
      Segment.bracketed (("nodeB").toList) [RangeSpec.rng (("05").toList) (("06").toList)]]).length =
      exprCard [Segment.bare (("nodeA").toList),
        Segment.bracketed (("nodeB").toList) [RangeSpec.rng (("05").toList) (("06").toList)]] :=
  ⟨by decide, (C2_expansion.1 _ (by decide)).1, (C2_expansion.1 _ (by decide)).2⟩

/-- C3 counterexample: the range `node[001-003]` expands with 2-digit
suffixes, not with the 3-digit width of the input tokens as the claim
states. -/
theorem C3_counterexample :
    parse_nodelist (("node[001-003]").toList) =
      some [("node01").toList, ("node02").toList, ("node03").toList] ∧
    ¬ parse_nodelist (("node[001-003]").toList) =
      some [("node001").toList, ("node002").toList, ("node003").toList] := by
  constructor
  · decide
  · decide

/-- C3 amended: every bracketed range `start-end` is expanded by converting
the endpoint tokens with `int` and formatting every value of the inclusive
range with the hard-coded Python format `"%02d"` (minimum width 2, zero
filled); the digit width of the input tokens is not preserved, and every
value below 100 is rendered with exactly 2 characters. -/
theorem C3_amended :
    (∀ a b : Str, digitTok a → digitTok b →
      expand_range (a ++ '-' :: b) =
        some ((intRange ((tokVal a : Int)) ((tokVal b : Int))).map fmt02)) ∧
    (∀ n : Nat, n < 100 → (fmt02 (Int.ofNat n)).length = 2) := by
  constructor
  · intro a b ha hb
    exact expand_range_digits ha hb
  · decide

/-- C3 witness: the amended theorem applied to the 3-digit range
`001-003` and to the value 5. -/
theorem C3_amended_witness :
    digitTok (("001").toList) ∧ digitTok (("003").toList) ∧
    expand_range ((("001").toList) ++ '-' :: (("003").toList)) =
      some ((intRange ((tokVal (("001").toList) : Int))
        ((tokVal (("003").toList) : Int))).map fmt02) ∧
    (5 : Nat) < 100 ∧ (fmt02 (Int.ofNat 5)).length = 2 :=
  ⟨by decide, by decide, C3_amended.1 _ _ (by decide) (by decide), by decide,
    C3_amended.2 5 (by decide)⟩

/-- C9 counterexample: the allocation-string decoder raises a `ValueError`
(`float("")`) on the well-formed-but-unexpected input `cpu=,`, contradicting
the claim that no decoder raises on such input. -/
theorem C9_counterexample : parse_usage (("cpu=,").toList) = none := rfl

/-- C9 amended: a malformed range whose start exceeds its end yields an
empty sequence rather than an error (shown both in general for digit
tokens and on the concrete fragment `05-03`); however decoders can raise
on other unexpected input, e.g. `parse_usage` on a resource whose value is
not a valid float. -/
theorem C9_amended :
    (∀ a b : Str, digitTok a → digitTok b → tokVal b < tokVal a →
      expand_range (a ++ '-' :: b) = some []) ∧
    expand_range (("05-03").toList) = some [] := by
  constructor
  · intro a b ha hb hlt
    rw [expand_range_digits ha hb]
    have hz : ((tokVal b : Int) + 1 - (tokVal a : Int)).toNat = 0 := by omega
    simp [intRange, hz]
  · decide

/-- C9 witness: the amended start-greater-than-end theorem applied to the
concrete tokens `05` and `03`. -/
theorem C9_amended_witness :
    digitTok (("05").toList) ∧ digitTok (("03").toList) ∧
    tokVal (("03").toList) < tokVal (("05").toList) ∧
    expand_range ((("05").toList) ++ '-' :: (("03").toList)) = some [] :=
  ⟨by decide, by decide, by decide, C9_amended.1 _ _ (by decide) (by decide) (by decide)⟩

theorem splitTL_ne_nil : ∀ (s : Str) (d : Int) (cur : Str), splitTL s d cur ≠ [] := by
  intro s
  induction s with
  | nil => intro d cur; simp [splitTL]
  | cons c rest ih =>
    intro d cur
    rw [splitTL]
    split
    · exact ih _ _
    · split
      · exact ih _ _
      · split
        · exact List.cons_ne_nil _ _
        · exact ih _ _

/-- C10 counterexample: the node-list expander can return an empty list —
`n[05-03]` expands to `[]` — so the expansion does not always have at
least one element. -/
theorem C10_counterexample : parse_nodelist (("n[05-03]").toList) = some [] := by decide

/-- C10 amended: the comma split itself always yields at least one segment
(the final segment is always appended) and the empty string expands to
`[""]`; but a bracketed segment may expand to zero hostnames, so the whole
expansion can be empty. The aggregator evaluates the per-node division only
once per member of the expansion, so whenever a share is computed the node
count is positive and no division by zero occurs. -/
theorem C10_amended :
    (∀ s : Str, splitTopLevel s ≠ []) ∧
    parse_nodelist [] = some [[]] ∧
    (∀ (s : Str) (l : List Str) (n : Str),
      parse_nodelist s = some l → n ∈ l → 0 < l.length) := by
  refine ⟨fun s => splitTL_ne_nil s 0 [], by decide, ?_⟩
  intro s l n _ hn
  exact List.length_pos.mpr (List.ne_nil_of_mem hn)

/-- C10 witness: the amended positivity statement applied to the expansion
of the concrete expression `nodeA`. -/
theorem C10_amended_witness :
    parse_nodelist (("nodeA").toList) = some [("nodeA").toList] ∧
    (("nodeA").toList) ∈ ([("nodeA").toList] : List Str) ∧
    0 < ([("nodeA").toList] : List Str).length :=
  ⟨by decide, by decide,
    C10_amended.2.2 (("nodeA").toList) [("nodeA").toList] (("nodeA").toList)
      (by decide) (by decide)⟩

/-- C7: a partition name is default-class iff it contains the substring
`default` or the substring `gpu`, and priority-class otherwise; in
particular `gpu-default` is default-class while `main-priority` and
`research` are priority-class. -/
theorem C7_classification :
    (∀ name : Str, is_priority name = false ↔
      (("default").toList <:+: name ∨ ("gpu").toList <:+: name)) ∧
    is_priority (("gpu-default").toList) = false ∧
    is_priority (("main-priority").toList) = true ∧
    is_priority (("research").toList) = true := by
  refine ⟨?_, by decide, by decide, by decide⟩
  intro name
  constructor
  · intro h
    have hb : (pyContains (("default").toList) name ||
        pyContains (("gpu").toList) name) = true := by
      revert h
      unfold is_priority
      cases pyContains (("default").toList) name || pyContains (("gpu").toList) name <;> simp
    rcases (Bool.or_eq_true _ _).mp hb with h1 | h1
    · exact Or.inl ((pyContains_iff _ _).mp h1)
    · exact Or.inr ((pyContains_iff _ _).mp h1)
  · intro h
    unfold is_priority
    rcases h with h1 | h1
    · rw [(pyContains_iff _ _).mpr h1]
      simp
    · rw [(pyContains_iff _ _).mpr h1]
      simp


theorem gpu_fold : ∀ (items : List Str) (acc : List Str × Nat),
    items.foldl gpuStep acc =
      (acc.1 ++ (items.filter isGpuItem).map (fun it => (itemFields it).getD 1 []),
       acc.2 + ((items.filter isGpuItem).map
         (fun it => tokVal (((itemFields it).getD 2 []).filter Char.isDigit))).sum) := by
  intro items
  induction items with
  | nil => intro acc; simp
  | cons it items ih =>
    intro acc
    rw [List.foldl_cons, ih]
    rcases hit : itemFields it with _ | ⟨p0, tl0⟩
    · have hit' : splitOnChar ':' it = [] := hit
      have hg : gpuStep acc it = acc := by
        unfold gpuStep
        rw [hit']
      have hf : isGpuItem it = false := by
        unfold isGpuItem
        rw [hit]
        simp
      rw [hg, List.filter_cons, hf]
      simp
    · rcases tl0 with _ | ⟨p1, tl1⟩
      · have hit' : splitOnChar ':' it = [p0] := hit
        have hg : gpuStep acc it = acc := by
          unfold gpuStep
          rw [hit']
        have hf : isGpuItem it = false := by
          unfold isGpuItem
          rw [hit]
          simp
        rw [hg, List.filter_cons, hf]
        simp
      · rcases tl1 with _ | ⟨p2, tl2⟩
        · have hit' : splitOnChar ':' it = [p0, p1] := hit
          have hg : gpuStep acc it = acc := by
            unfold gpuStep
            rw [hit']
          have hf : isGpuItem it = false := by
            unfold isGpuItem
            rw [hit]
            simp
          rw [hg, List.filter_cons, hf]
          simp
        · have hit' : splitOnChar ':' it = p0 :: p1 :: p2 :: tl2 := hit
          have hhead : (p0 :: p1 :: p2 :: tl2).headD ([] : Str) = p0 := rfl
          rcases hs : pyStartsWith (("gpu").toList) p0 with _ | _
          · have hg : gpuStep acc it = acc := by
              unfold gpuStep
              rw [hit']
              show (if pyStartsWith (("gpu").toList) p0 = true
                  then (acc.1 ++ [p1], acc.2 + tokVal (p2.filter Char.isDigit))
                  else acc) = acc
              rw [hs]
              simp
            have hf : isGpuItem it = false := by
              unfold isGpuItem
              rw [hit, hhead, hs]
              simp
            rw [hg, List.filter_cons, hf]
            simp
          · have hg : gpuStep acc it =
                (acc.1 ++ [p1], acc.2 + tokVal (p2.filter Char.isDigit)) := by
              unfold gpuStep
              rw [hit']
              show (if pyStartsWith (("gpu").toList) p0 = true
                  then (acc.1 ++ [p1], acc.2 + tokVal (p2.filter Char.isDigit))
                  else acc) = (acc.1 ++ [p1], acc.2 + tokVal (p2.filter Char.isDigit))
              rw [hs]
              simp
            have hf : isGpuItem it = true := by
              unfold isGpuItem
              rw [hit, hhead, hs]
              simp
            rw [hg, List.filter_cons, hf]
            simp [hit]
            omega

/-- C4 counterexample: the decoder does not deduplicate model names — two
items of the same model render as `(a100|a100)`, not as the single distinct
model name `a100` the claim prescribes. -/
theorem C4_counterexample :
    parse_gpu (("gpu:a100:2,gpu:a100:1").toList) = ⟨("(a100|a100)").toList, 3⟩ ∧
    ("(a100|a100)").toList ≠ ("a100").toList := by
  constructor
  · decide
  · decide

/-- C4 amended: the null marker anywhere overrides everything; otherwise
only comma items with at least 3 colon fields whose first field starts with
`gpu` count, their second fields are collected in order with duplicates
retained (no deduplication), digit-extracted third fields are summed, and
the kind is the parenthesized `|`-join whenever more than one item matched
(even for equal models), the single model name when exactly one matched, or
`null` when none matched; `parseGpu("gpu:a100:2,gpu:h100:1") =
{kind:"(a100|h100)", count:3}`. -/
theorem C4_amended :
    (∀ gres : Str, pyContains (("null").toList) gres = true →
      parse_gpu gres = ⟨("null").toList, 0⟩) ∧
    (∀ gres : Str, pyContains (("null").toList) gres = false →
      parse_gpu gres = ⟨renderKind (matchedTypes gres), matchedTotal gres⟩) ∧
    parse_gpu (("gpu:a100:2,gpu:h100:1").toList) = ⟨("(a100|h100)").toList, 3⟩ := by
  refine ⟨?_, ?_, by decide⟩
  · intro g h
    unfold parse_gpu
    rw [if_pos h]
  · intro g h
    unfold parse_gpu
    rw [if_neg (by rw [h]; simp), gpu_fold]
    simp only [List.nil_append, Nat.zero_add]
    rfl

/-- C4 witness: the amended theorem applied to the null marker `(null)` and
to the single-item string `gpu:v100:3`. -/
theorem C4_amended_witness :
    pyContains (("null").toList) (("(null)").toList) = true ∧
    parse_gpu (("(null)").toList) = ⟨("null").toList, 0⟩ ∧
    pyContains (("null").toList) (("gpu:v100:3").toList) = false ∧
    parse_gpu (("gpu:v100:3").toList) =
      ⟨renderKind (matchedTypes (("gpu:v100:3").toList)),
        matchedTotal (("gpu:v100:3").toList)⟩ :=
  ⟨by decide, C4_amended.1 _ (by decide), by decide, C4_amended.2.1 _ (by decide)⟩

/-! ### Allocation-string decoder (C5) -/

theorem parseOneRes_absent {s res : Str} (h : pyContains res s = false) :
    parseOneRes s res = some 0 := by
  unfold parseOneRes
  rw [h]
  simp

/-- C5 counterexample: the allocation string `mcpu=4` contains no key
`cpu`, yet the decoder reports cpu = 4.0 because the resource name is
matched as a substring; the claim predicts 0.0 for an absent key. -/
theorem C5_counterexample :
    (parse_usage (("mcpu=4").toList)).map (fun u => u Resource.cpu) = some 4 ∧
    ¬ (parse_usage (("mcpu=4").toList)).map (fun u => u Resource.cpu) = some 0 := by
  constructor
  · decide
  · decide

/-- C5 amended: the decoder extracts the value following the first
occurrence of the substring `<res>=` anywhere in the string, so keys merely
ending in a resource name (`mcpu`, `gres/gpu`, …) are matched too; a
resource whose name does not occur as a substring decodes to 0.0; a
trailing `G` is stripped before float parsing; `cpu=4,gpu=2,mem=8G`
decodes to {cpu:4.0, gpu:2.0, mem:8.0}. -/
theorem C5_amended :
    (∀ (s : Str) (r : Resource) (u : Resource → ℚ), parse_usage s = some u →
      pyContains (resName r) s = false → u r = 0) ∧
    (parse_usage (("cpu=4,gpu=2,mem=8G").toList)).map
      (fun u => (u Resource.cpu, u Resource.gpu, u Resource.mem)) = some (4, 2, 8) ∧
    (parse_usage (("gres/gpu=2").toList)).map (fun u => u Resource.gpu) = some 2 := by
  refine ⟨?_, by decide, by decide⟩
  intro s r u h h0
  unfold parse_usage at h
  simp only [Option.bind_eq_bind, Option.bind_eq_some, Option.pure_def,
    Option.some.injEq] at h
  obtain ⟨c, hc, g, hg, m, hm, hu⟩ := h
  subst hu
  cases r with
  | cpu =>
    have h0' : pyContains (("cpu").toList) s = false := h0
    rw [parseOneRes_absent h0'] at hc
    exact (Option.some.inj hc).symm
  | gpu =>
    have h0' : pyContains (("gpu").toList) s = false := h0
    rw [parseOneRes_absent h0'] at hg
    exact (Option.some.inj hg).symm
  | mem =>
    have h0' : pyContains (("mem").toList) s = false := h0
    rw [parseOneRes_absent h0'] at hm
    exact (Option.some.inj hm).symm

/-- C5 witness: the amended absent-resource statement applied to the
concrete string `billing=28` and the resource gpu. -/
theorem C5_amended_witness :
    (parse_usage (("billing=28").toList)).map (fun u => u Resource.gpu) = some 0 ∧
    pyContains (resName Resource.gpu) (("billing=28").toList) = false := by
  have hs : parse_usage (("billing=28").toList) =
      some ((parse_usage (("billing=28").toList)).getD (fun _ => 0)) := rfl
  refine ⟨?_, by decide⟩
  rw [hs]
  show some (((parse_usage (("billing=28").toList)).getD (fun _ => 0)) Resource.gpu) = some 0
  rw [C5_amended.1 (("billing=28").toList) Resource.gpu
    ((parse_usage (("billing=28").toList)).getD (fun _ => 0)) hs (by decide)]

/-! ### Feed-line robustness (C8) -/

/-- C8 counterexample: a node-info line with only 2 whitespace fields is
fatal — `parse_sinfo` raises `IndexError` reading field 2 — contradicting
the claim that short node-info lines are skipped silently. -/
theorem C8_counterexample :
    parse_sinfo (("node1 gpu:a100:2").toList) false = none := rfl

/-- C8 amended: job lines with fewer than 6 whitespace-separated fields are
skipped silently; node-info lines are skipped only when they are entirely
empty — a non-empty node-info line with fewer than the 5 expected fields
raises `IndexError` (except that, when the gpu-only filter is set and the
gres field decodes to null, the line is skipped before the missing fields
are read). -/
theorem C8_amended :
    (∀ (line : Str) (sv : Servers), (splitFields line).length < 6 →
      process_line sv line = some sv) ∧
    (∀ (gpu_only : Bool) (sv : Servers) (line : Str), pySplitWs line = [] →
      parse_sinfo_line gpu_only sv line = some sv) := by
  constructor
  · intro line sv h
    simp only [process_line]
    rw [if_pos h]
    rfl
  · intro gb sv line h
    simp only [parse_sinfo_line, h]
    rfl

/-- C8 witness: the amended skip statements applied to the 3-field job line
`a b c` and the empty node-info line. -/
theorem C8_amended_witness :
    (splitFields (("a b c").toList)).length < 6 ∧
    process_line emptyServers (("a b c").toList) = some emptyServers ∧
    pySplitWs [] = [] ∧
    parse_sinfo_line false emptyServers [] = some emptyServers :=
  ⟨by decide, C8_amended.1 (("a b c").toList) emptyServers (by decide), by decide,
    C8_amended.2 false emptyServers [] (by decide)⟩

/-! ### Job attribution (C1, C6) -/

theorem attribNode_apply_ne {user partition jid : Str} {u : Resource → ℚ} {k : Nat}
    {pt : PClass} (sv : Servers) (node m : Str) (h : m ≠ node) :
    attribNode user partition jid u k pt sv node m = sv m := by
  unfold attribNode
  cases sv node with
  | none => rfl
  | some nr => exact Function.update_noteq h _ _

theorem attribNode_apply_self {user partition jid : Str} {u : Resource → ℚ} {k : Nat}
    {pt : PClass} (sv : Servers) (node : Str) (nr : NodeRec) (h : sv node = some nr) :
    attribNode user partition jid u k pt sv node node = some
      { nr with
        users := Function.update nr.users jid
          (some ⟨user, partition, fun r => u r / (k : ℚ)⟩),
        usage := fun r p => if p = pt then nr.usage r p + u r / (k : ℚ)
          else nr.usage r p } := by
  unfold attribNode
  rw [h]
  exact Function.update_same _ _ _

theorem attribNode_isSome {user partition jid : Str} {u : Resource → ℚ} {k : Nat}
    {pt : PClass} (sv : Servers) (node m : Str) (h : (sv m).isSome = true) :
    ((attribNode user partition jid u k pt sv node) m).isSome = true := by
  by_cases hm : m = node
  · subst hm
    cases hnr : sv m with
    | none => rw [hnr] at h; exact absurd h (by simp)
    | some nr => rw [attribNode_apply_self sv m nr hnr]; rfl
  · rw [attribNode_apply_ne sv node m hm]; exact h

theorem attribNode_none {user partition jid : Str} {u : Resource → ℚ} {k : Nat}
    {pt : PClass} (sv : Servers) (node m : Str) (h : sv m = none) :
    attribNode user partition jid u k pt sv node m = none := by
  by_cases hm : m = node
  · subst hm
    unfold attribNode
    rw [h]
    exact h
  · rw [attribNode_apply_ne sv node m hm]
    exact h

theorem attrib_fold (user partition jid : Str) (u : Resource → ℚ) (k : Nat) (pt : PClass) :
    ∀ (l : List Str) (sv : Servers), l.Nodup → (∀ n ∈ l, (sv n).isSome = true) →
      (∀ m, m ∉ l →
        l.foldl (attribNode user partition jid u k pt) sv m = sv m) ∧
      (∀ n ∈ l, ∀ r,
        shareAt (l.foldl (attribNode user partition jid u k pt) sv) n jid r =
          some (u r / (k : ℚ))) ∧
      (∀ n ∈ l, ∀ r p,
        nodeUsage (l.foldl (attribNode user partition jid u k pt) sv) n r p =
          nodeUsage sv n r p + (if p = pt then u r / (k : ℚ) else 0)) := by
  intro l
  induction l with
  | nil =>
    intro sv _ _
    refine ⟨fun m _ => rfl, ?_, ?_⟩ <;> intro n hn <;> exact absurd hn (by simp)
  | cons a l ih =>
    intro sv hnd hsome
    have ha : (sv a).isSome = true := hsome a (by simp)
    obtain ⟨nr, hnr⟩ := Option.isSome_iff_exists.mp ha
    have hanotin : a ∉ l := (List.nodup_cons.mp hnd).1
    have hndl : l.Nodup := (List.nodup_cons.mp hnd).2
    have hsome1 : ∀ n ∈ l,
        ((attribNode user partition jid u k pt sv a) n).isSome = true :=
      fun n hn => attribNode_isSome sv a n (hsome n (by simp [hn]))
    obtain ⟨ih1, ih2, ih3⟩ := ih (attribNode user partition jid u k pt sv a) hndl hsome1
    have hfold : (a :: l).foldl (attribNode user partition jid u k pt) sv =
        l.foldl (attribNode user partition jid u k pt)
          (attribNode user partition jid u k pt sv a) := rfl
    have hsv1a : attribNode user partition jid u k pt sv a a = some
        { nr with
          users := Function.update nr.users jid
            (some ⟨user, partition, fun r => u r / (k : ℚ)⟩),
          usage := fun r p => if p = pt then nr.usage r p + u r / (k : ℚ)
            else nr.usage r p } :=
      attribNode_apply_self sv a nr hnr
    refine ⟨?_, ?_, ?_⟩
    · intro m hm
      rw [hfold, ih1 m (fun hml => hm (by simp [hml])),
        attribNode_apply_ne sv a m (fun he => hm (by simp [he]))]
    · intro n hn r
      rcases List.mem_cons.mp hn with rfl | hnl
      · rw [hfold]
        unfold shareAt
        rw [ih1 n hanotin, hsv1a]
        simp [Function.update_same]
      · exact hfold ▸ ih2 n hnl r
    · intro n hn r p
      rcases List.mem_cons.mp hn with rfl | hnl
      · rw [hfold]
        unfold nodeUsage
        rw [ih1 n hanotin, hsv1a, hnr]
        by_cases hp : p = pt <;> simp [hp]
      · rw [hfold, ih3 n hnl r p]
        have hne : n ≠ a := fun he => hanotin (he ▸ hnl)
        unfold nodeUsage
        rw [attribNode_apply_ne sv a n hne]

theorem list_sum_shift {α : Type} (f g : α → ℚ) (d : ℚ) :
    ∀ l : List α, (∀ n ∈ l, g n = f n + d) →
      (l.map g).sum = (l.map f).sum + (l.length : ℚ) * d := by
  intro l
  induction l with
  | nil => intro _; simp
  | cons a l ih =>
    intro h
    rw [List.map_cons, List.map_cons, List.sum_cons, List.sum_cons,
      ih (fun n hn => h n (by simp [hn])), h a (by simp), List.length_cons]
    push_cast
    ring

theorem process_line_eq {line : Str} (sv : Servers)
    {user partition nodelist st alloc jid : Str} {extra : List Str}
    (hparts : splitFields line = user :: partition :: nodelist :: st :: alloc :: jid :: extra)
    {u : Resource → ℚ} (hu : parse_usage alloc = some u)
    {nodes : List Str} (hn : parse_nodelist nodelist = some nodes) :
    process_line sv line = some (nodes.foldl
      (attribNode user partition jid u nodes.length (classifyP partition)) sv) := by
  have hlen : ¬((splitFields line).length < 6) := by
    rw [hparts]
    simp only [List.length_cons]
    omega
  simp only [process_line]
  rw [if_neg hlen, hparts]
  rw [show (user :: partition :: nodelist :: st :: alloc :: jid :: extra).getD 0
      ([] : Str) = user from rfl,
    show (user :: partition :: nodelist :: st :: alloc :: jid :: extra).getD 1
      ([] : Str) = partition from rfl,
    show (user :: partition :: nodelist :: st :: alloc :: jid :: extra).getD 2
      ([] : Str) = nodelist from rfl,
    show (user :: partition :: nodelist :: st :: alloc :: jid :: extra).getD 4
      ([] : Str) = alloc from rfl,
    show (user :: partition :: nodelist :: st :: alloc :: jid :: extra).getD 5
      ([] : Str) = jid from rfl,
    hu, hn]
  rfl

theorem fold_attrib_none {user partition jid : Str} {u : Resource → ℚ} {k : Nat}
    {pt : PClass} : ∀ (l : List Str) (sv : Servers) (m : Str), sv m = none →
      l.foldl (attribNode user partition jid u k pt) sv m = none := by
  intro l
  induction l with
  | nil => intro sv m h; exact h
  | cons a l ih => intro sv m h; exact ih _ m (attribNode_none sv a m h)

theorem process_line_none {sv sv' : Servers} {line : Str}
    (h : process_line sv line = some sv') {m : Str} (hm : sv m = none) : sv' m = none := by
  revert h
  simp only [process_line]
  by_cases hlen : (splitFields line).length < 6
  · rw [if_pos hlen]
    intro h
    obtain rfl := Option.some.inj h
    exact hm
  · rw [if_neg hlen]
    intro h
    simp only [Option.bind_eq_bind, Option.bind_eq_some, Option.pure_def,
      Option.some.injEq] at h
    obtain ⟨u, _, nodes, _, rfl⟩ := h
    exact fold_attrib_none nodes sv m hm

theorem foldLines_none : ∀ (lines : List Str) (sv sv' : Servers),
    foldLinesM process_line sv lines = some sv' → ∀ m, sv m = none → sv' m = none := by
  intro lines
  induction lines with
  | nil =>
    intro sv sv' h m hm
    obtain rfl := Option.some.inj h
    exact hm
  | cons l ls ih =>
    intro sv sv' h m hm
    rw [foldLinesM] at h
    simp only [Option.bind_eq_bind, Option.bind_eq_some] at h
    obtain ⟨sv1, h1, h2⟩ := h
    exact ih sv1 sv' h2 m (process_line_none h1 hm)


/-- C1 counterexample: a job with gpu=4 spanning node01,node02 where node02
is absent from the inventory attributes 2.0 GPUs to node01 and nothing to
node02, so the sum of shares over all attributed nodes is 2, not the
original job total 4 as the claim states. -/
theorem C1_counterexample :
    (process_line svOne lineTwo).map (fun sv' =>
      nodeUsage sv' (("node01").toList) Resource.gpu PClass.priority +
      nodeUsage sv' (("node02").toList) Resource.gpu PClass.priority) = some 2 ∧
    ((2 : ℚ) ≠ 4) := by
  constructor
  · have h : (process_line svOne lineTwo).map (fun sv' =>
        nodeUsage sv' (("node01").toList) Resource.gpu PClass.priority +
        nodeUsage sv' (("node02").toList) Resource.gpu PClass.priority) =
        some (((0 : ℚ) + ((4 : ℕ) : ℚ) / ((2 : ℕ) : ℚ)) + 0) := rfl
    rw [h]
    norm_num
  · norm_num

/-- C1 amended: on every running-job line each resource quantity is divided
by the number of hostnames of the expanded nodelist with exact fractional
division; the identical per-node share is recorded in the JobShare and
added to the partition-class accumulator of every inventory node, and —
provided every expanded hostname is present in the inventory and the
expansion is duplicate-free and nonempty — the sum of the accumulators over
the attributed nodes grows by exactly the job's original total. -/
theorem C1_attribution
    (line : Str) (sv : Servers) (user partition nodelist st alloc jid : Str)
    (extra : List Str) (u : Resource → ℚ) (nodes : List Str)
    (hparts : splitFields line = user :: partition :: nodelist :: st :: alloc :: jid :: extra)
    (hu : parse_usage alloc = some u)
    (hn : parse_nodelist nodelist = some nodes)
    (hmem : ∀ n ∈ nodes, (sv n).isSome = true)
    (hnd : nodes.Nodup) (hne : nodes ≠ []) :
    ∀ sv', process_line sv line = some sv' →
      (∀ n ∈ nodes, ∀ r, shareAt sv' n jid r = some (u r / (nodes.length : ℚ))) ∧
      (∀ n ∈ nodes, ∀ r, nodeUsage sv' n r (classifyP partition) =
        nodeUsage sv n r (classifyP partition) + u r / (nodes.length : ℚ)) ∧
      (∀ r, (nodes.map (fun n => nodeUsage sv' n r (classifyP partition))).sum =
        (nodes.map (fun n => nodeUsage sv n r (classifyP partition))).sum + u r) := by
  intro sv' hpl
  rw [process_line_eq sv hparts hu hn] at hpl
  obtain rfl := Option.some.inj hpl
  obtain ⟨h1, h2, h3⟩ := attrib_fold user partition jid u nodes.length
    (classifyP partition) nodes sv hnd hmem
  refine ⟨h2, ?_, ?_⟩
  · intro n hn' r
    have h := h3 n hn' r (classifyP partition)
    simpa using h
  · intro r
    have hk : ((nodes.length : ℚ)) ≠ 0 :=
      Nat.cast_ne_zero.mpr (fun h0 => hne (List.length_eq_zero.mp h0))
    rw [list_sum_shift
      (fun n => nodeUsage sv n r (classifyP partition))
      (fun n => nodeUsage (nodes.foldl
        (attribNode user partition jid u nodes.length (classifyP partition)) sv)
        n r (classifyP partition))
      (u r / (nodes.length : ℚ)) nodes
      (fun n hn' => by simpa using h3 n hn' r (classifyP partition))]
    rw [mul_comm, div_mul_cancel₀ _ hk]

/-- C1 witness: the amended theorem applied to the job line
`alice research node01,node02 R gpu=4 77` on an inventory containing both
nodes: each node receives the share 2.0 = 4/2 and the accumulator totals
grow by the full 4. -/
theorem C1_attribution_witness :
    splitFields lineTwo = ("alice").toList :: ("research").toList ::
      ("node01,node02").toList :: ("R").toList :: ("gpu=4").toList ::
      ("77").toList :: [] ∧
    parse_usage (("gpu=4").toList) = some usageTwo ∧
    parse_nodelist (("node01,node02").toList) = some nodesTwo ∧
    (∀ n ∈ nodesTwo, (svTwo n).isSome = true) ∧
    nodesTwo.Nodup ∧ nodesTwo ≠ [] ∧
    process_line svTwo lineTwo = some svTwoAfter ∧
    (∀ n ∈ nodesTwo, ∀ r, shareAt svTwoAfter n (("77").toList) r =
      some (usageTwo r / ((nodesTwo.length : ℚ)))) ∧
    usageTwo Resource.gpu / ((nodesTwo.length : ℚ)) = 2 ∧
    (∀ r, (nodesTwo.map (fun n =>
        nodeUsage svTwoAfter n r (classifyP (("research").toList)))).sum =
      (nodesTwo.map (fun n =>
        nodeUsage svTwo n r (classifyP (("research").toList)))).sum + usageTwo r) := by
  have hu : parse_usage (("gpu=4").toList) = some usageTwo := rfl
  have hpl : process_line svTwo lineTwo = some svTwoAfter := rfl
  obtain ⟨w1, w2, w3⟩ := C1_attribution lineTwo svTwo (("alice").toList)
    (("research").toList) (("node01,node02").toList) (("R").toList)
    (("gpu=4").toList) (("77").toList) [] usageTwo nodesTwo
    (by decide) hu (by decide) (by decide) (by decide) (by decide) svTwoAfter hpl
  refine ⟨by decide, hu, by decide, by decide, by decide, by decide, hpl, w1, ?_, w3⟩
  have hq : usageTwo Resource.gpu / ((nodesTwo.length : ℚ)) =
      ((4 : ℕ) : ℚ) / ((2 : ℕ) : ℚ) := rfl
  rw [hq]
  norm_num

/-- C6: aggregation never creates inventory keys — every hostname carrying
usage or a job entry after `process_jobs` already existed in the inventory,
a job hostname absent from the inventory is silently dropped for node-level
attribution — and the same job line still contributes its entry to the flat
per-user job summary list, which applies no node filtering. -/
theorem C6_keys :
    (∀ (out : Str) (sv sv' : Servers), process_jobs out sv = some sv' →
      ∀ k, sv k = none → sv' k = none) ∧
    (∀ (out : Str), ∀ line ∈ pyLines out,
      ∀ (user partition nodelist st alloc jid : Str) (extra : List Str),
        splitFields line = user :: partition :: nodelist :: st :: alloc :: jid :: extra →
        (⟨user, partition, nodelist, alloc, jid⟩ : JobSummary) ∈ build_jobs out) := by
  constructor
  · intro out sv sv' h k hk
    exact foldLines_none (pyLines out) sv sv' h k hk
  · intro out line hline user partition nodelist st alloc jid extra hsplit
    unfold build_jobs
    refine List.mem_filterMap.mpr ⟨line, hline, ?_⟩
    simp only [hsplit]
    rw [if_pos (by simp only [List.length_cons]; omega)]
    rfl

/-- C6 witness: the key-preservation and summary-membership statements
applied to a feed whose single job references node01 and the unknown nodeZ
on an inventory containing only node01. -/
theorem C6_keys_witness :
    svOne (("nodeZ").toList) = none ∧
    process_jobs outC svOne = some svOneAfter ∧
    svOneAfter (("nodeZ").toList) = none ∧
    (("alice research node01,nodeZ R gpu=4 77").toList) ∈ pyLines outC ∧
    (⟨("alice").toList, ("research").toList, ("node01,nodeZ").toList,
      ("gpu=4").toList, ("77").toList⟩ : JobSummary) ∈ build_jobs outC := by
  have hpj : process_jobs outC svOne = some svOneAfter := rfl
  refine ⟨rfl, hpj, ?_, by decide, ?_⟩
  · exact C6_keys.1 outC svOne svOneAfter hpj (("nodeZ").toList) rfl
  · exact C6_keys.2 outC (("alice research node01,nodeZ R gpu=4 77").toList)
      (by decide) (("alice").toList) (("research").toList)
      (("node01,nodeZ").toList) (("R").toList) (("gpu=4").toList)
      (("77").toList) [] (by decide)

end Gtop
